import Mathlib

/-!
Verification development for the backup-vault extension: a shallow embedding of
its hierarchical selection model (webview.js, BackupTreeDataProvider) and of its
backup/transfer engine (fileOperations.js, FileOperations), with theorems
settling the specification claims about them.

Paths are modelled root-relative as lists of name components (`RPath`); the
string test `s.startsWith(p + path.sep)` on absolute paths corresponds to the
strict list-prefix relation, and `s === p` to list equality.  A filesystem
subtree is an `FSEntry`: a file carries a readability flag (false models a file
whose read stream errors) and an abstract content hash; a directory carries its
named children.
-/

abbrev FName := String
abbrev RPath := List String

inductive FSEntry : Type where
  | file (readable : Bool) (hash : Nat) : FSEntry
  | dir (children : List (FName × FSEntry)) : FSEntry

/- Navigate from an entry down a relative path (the filesystem stat/access). -/
mutual
def findEntry : FSEntry → RPath → Option FSEntry
  | e, [] => some e
  | .file _ _, _ :: _ => none
  | .dir cs, n :: q => findChild cs n q
def findChild : List (FName × FSEntry) → FName → RPath → Option FSEntry
  | [], _, _ => none
  | (m, c) :: rest, n, q => if m = n then findEntry c q else findChild rest n q
end

def existsAt (t : FSEntry) (p : RPath) : Bool := (findEntry t p).isSome

def isDirAt (t : FSEntry) (p : RPath) : Bool :=
  match findEntry t p with
  | some (.dir _) => true
  | _ => false

/- All relative paths strictly below an entry (every file and directory in its
subtree), as produced by a full recursive directory scan. -/
mutual
def subPaths : FSEntry → List RPath
  | .file _ _ => []
  | .dir cs => subPathsList cs
def subPathsList : List (FName × FSEntry) → List RPath
  | [] => []
  | (n, c) :: rest => ([n] :: (subPaths c).map (fun q => n :: q)) ++ subPathsList rest
end

/-- Paths of all entries strictly below path `p` in tree `t` (empty when `p`
does not exist or is a file). -/
def descendantPathsAt (t : FSEntry) (p : RPath) : List RPath :=
  match findEntry t p with
  | some e => (subPaths e).map (fun q => p ++ q)
  | none => []

/- Every file in the subtree can be read (so a recursive copy succeeds). -/
mutual
def allReadable : FSEntry → Bool
  | .file r _ => r
  | .dir cs => allReadableList cs
def allReadableList : List (FName × FSEntry) → Bool
  | [] => true
  | (_, c) :: rest => allReadable c && allReadableList rest
end

/- Some file in the subtree cannot be read. -/
mutual
def hasUnreadableFile : FSEntry → Bool
  | .file r _ => !r
  | .dir cs => hasUnreadableList cs
def hasUnreadableList : List (FName × FSEntry) → Bool
  | [] => false
  | (_, c) :: rest => hasUnreadableFile c || hasUnreadableList rest
end

/- Well-formed filesystem tree: sibling names are distinct at every level. -/
mutual
def wfFS : FSEntry → Bool
  | .file _ _ => true
  | .dir cs => decide ((cs.map Prod.fst).Nodup) && wfList cs
def wfList : List (FName × FSEntry) → Bool
  | [] => true
  | (_, c) :: rest => wfFS c && wfList rest
end

/-- `descOf a q`: `q` is a strict descendant path of `a` (the JS string test
`q.startsWith(a + path.sep)`). -/
def descOf (a q : RPath) : Bool := a.isPrefixOf q && decide (q ≠ a)

/-- Strict ancestors of a path, i.e. the chain of `.parent` references up to
and including the workspace root `[]` (for a non-root path). -/
def ancestorsOf (p : RPath) : List RPath :=
  (List.range p.length).map (fun k => p.take k)

/-- Names of the children of the directory at `p` (empty if not a directory). -/
def childNames (t : FSEntry) (p : RPath) : List FName :=
  match findEntry t p with
  | some (.dir cs) => cs.map Prod.fst
  | _ => []

/-!
Selection model (webview.js, class BackupTreeDataProvider)

State: the two persisted sets of paths, `selected` (`this.selectedItems`,
spec: `included`) and `deselected` (`this.deselectedItems`, spec: `excluded`),
plus the persisted `packFiles` flag.  Tree items are ephemeral; an item is
identified by its path, its `parent` chain is the chain of path prefixes, and
its children are read from the filesystem tree `t`.
-/

structure SelState where
  selected : Finset RPath
  deselected : Finset RPath
  packFiles : Bool
deriving DecidableEq

/-- `isParentSelected`: walk the `parent` chain looking for a selected path. -/
def isParentSelected (S : SelState) (p : RPath) : Bool :=
  (ancestorsOf p).any (fun a => decide (a ∈ S.selected))

/-- `isItemSelected`: directly selected, or selected through a parent and not
explicitly deselected. -/
def isItemSelected (S : SelState) (p : RPath) : Bool :=
  decide (p ∈ S.selected) ||
    (isParentSelected S p && !decide (p ∈ S.deselected))

/-- `removeChildSelections`: drop every selected path strictly below `p`. -/
def removeChildSelections (S : SelState) (p : RPath) : SelState :=
  { S with selected := S.selected.filter (fun q => descOf p q = false) }

/-- `clearDeselectedItemsInFolder`: drop every deselected path strictly below
the folder `p` (the folder itself is not removed here). -/
def clearDeselectedItemsInFolder (S : SelState) (p : RPath) : SelState :=
  { S with deselected := S.deselected.filter (fun q => descOf p q = false) }

/-- `selectFolder`: clear any exclusion on the folder; if it is covered by a
selected ancestor only clear exclusions inside it, otherwise remove redundant
child selections and exclusions and add the folder itself. -/
def selectFolder (S : SelState) (p : RPath) : SelState :=
  let S1 : SelState := { S with deselected := S.deselected.erase p }
  if isParentSelected S1 p then clearDeselectedItemsInFolder S1 p
  else
    let S2 := removeChildSelections S1 p
    let S3 := clearDeselectedItemsInFolder S2 p
    { S3 with selected := insert p S3.selected }

/-- Sibling paths of a non-root item: the parent directory's other children. -/
def siblingsOf (t : FSEntry) (p : RPath) : List RPath :=
  match p.getLast? with
  | none => []
  | some leaf =>
      ((childNames t p.dropLast).filter (fun n => n ≠ leaf)).map
        (fun n => p.dropLast ++ [n])

/-- `checkAndSelectParentIfAllSiblingsSelected`: after selecting a file, if all
its (loaded) siblings are directly selected, promote the parent folder. -/
def checkAndSelectParentIfAllSiblingsSelected (t : FSEntry) (S : SelState)
    (p : RPath) : SelState :=
  if p = [] then S
  else
    let sibs := siblingsOf t p
    if (∀ s ∈ sibs, s ∈ S.selected) ∧ sibs ≠ [] then
      selectFolder S p.dropLast
    else S

/-- `selectFile`: clear an exclusion on the file; skip if covered by a selected
ancestor; otherwise add it and try the fold-up promotion of the parent. -/
def selectFile (t : FSEntry) (S : SelState) (p : RPath) : SelState :=
  let S1 : SelState := { S with deselected := S.deselected.erase p }
  if isParentSelected S1 p then S1
  else
    let S2 : SelState := { S1 with selected := insert p S1.selected }
    checkAndSelectParentIfAllSiblingsSelected t S2 p

/-- `addDeselectedItemsInFolder`: add the folder and, by recursive filesystem
scan, every path below it to the deselected set. -/
def addDeselectedItemsInFolder (t : FSEntry) (S : SelState) (p : RPath) :
    SelState :=
  { S with
    deselected :=
      S.deselected ∪ insert p (descendantPathsAt t p).toFinset }

/-- `checkAndDeselectParentIfNoChildrenSelected`: if no child of `parent` is
still derived-included, remove `parent` from the selected set and clear the
exclusions below it. -/
def checkAndDeselectParentIfNoChildrenSelected (t : FSEntry) (S : SelState)
    (parent : RPath) : SelState :=
  let hasSel := (childNames t parent).any
    (fun n => isItemSelected S (parent ++ [n]))
  if hasSel then S
  else
    let S1 : SelState := { S with selected := S.selected.erase parent }
    clearDeselectedItemsInFolder S1 parent

/-- `deselectItem`: an item selected only through a parent is added to the
deselected set (a folder together with its whole scanned subtree), possibly
folding the parent selection away; a directly selected item is removed, a
folder also clearing exclusions below it. -/
def deselectItem (t : FSEntry) (S : SelState) (p : RPath) : SelState :=
  if p ∈ S.selected then
    let S1 : SelState := { S with selected := S.selected.erase p }
    if isDirAt t p then clearDeselectedItemsInFolder S1 p else S1
  else
    let S1 :=
      if isDirAt t p then addDeselectedItemsInFolder t S p
      else { S with deselected := insert p S.deselected }
    if p ≠ [] ∧ p.dropLast ∈ S1.selected then
      checkAndDeselectParentIfNoChildrenSelected t S1 p.dropLast
    else S1

/-- `toggleSelection`: deselect if derived-included, else select (folder or
file); selecting the workspace root `[]` force-enables `packFiles`, and so does
ending with more than one selected entry. -/
def toggleSelection (t : FSEntry) (S : SelState) (p : RPath) : SelState :=
  let wasSelected := isItemSelected S p
  let S1 :=
    if wasSelected then deselectItem t S p
    else
      let S' := if isDirAt t p then selectFolder S p else selectFile t S p
      if p = [] ∧ S'.packFiles = false then { S' with packFiles := true }
      else S'
  if 1 < S1.selected.card ∧ S1.packFiles = false then
    { S1 with packFiles := true }
  else S1

/-!
Backup/transfer engine (fileOperations.js, class FileOperations)

Hashing is modelled on the abstract content hash carried by each file; a
non-readable file makes the streaming hash (and the streaming copy) fail, which
is what the retry-wrapped primitives surface after retries are exhausted.
The observable filesystem actions of a job are recorded as a list of events
`BEv` in execution order.
-/

/-- `_calculateFileHash`: streaming SHA-256, fails when the read stream errors. -/
def hashFileE (readable : Bool) (h : Nat) : Except String Nat :=
  if readable then .ok h else .error "Failed to hash file"

/-
`_calculateDirectoryHashes`: walk a directory; for each entry the exclusion
test of the source is `deselectedPath === fullPath ||
deselectedPath.startsWith(fullPath + path.sep)` — i.e. the entry is skipped
when its path is a (non-strict) prefix of SOME deselected path; a per-entry
try/catch logs and skips entries whose hashing (or recursive walk) fails.
-/
mutual
def calcEntryHashes (cur : RPath) (desel : List RPath) :
    FSEntry → List (RPath × Nat)
  | .file r h =>
      match hashFileE r h with
      | .ok hv => [(cur, hv)]
      | .error _ => []
  | .dir cs => calcChildHashes cur desel cs
def calcChildHashes (cur : RPath) (desel : List RPath) :
    List (FName × FSEntry) → List (RPath × Nat)
  | [] => []
  | (n, c) :: rest =>
      (if desel.any (fun d => (cur ++ [n]).isPrefixOf d) then []
       else calcEntryHashes (cur ++ [n]) desel c)
      ++ calcChildHashes cur desel rest
end

/-- `_calculateDirectoryHashes` entry point: the initial `readdir` on a
non-directory fails; per-file errors inside the walk are swallowed. -/
def calcDirHashesE (e : FSEntry) (desel : List RPath) :
    Except String (List (RPath × Nat)) :=
  match e with
  | .file _ _ => .error "readdir failed"
  | .dir cs => .ok (calcChildHashes [] desel cs)

/-- `_calculateSourceHashes` for a single (unpacked) source: a directory gets
its relative-path manifest; a file gets one entry keyed by its basename; any
error is rethrown as fatal. -/
def calcSourceHashesSingle (srcName : FName) (src : FSEntry)
    (desel : List RPath) : Except String (List (RPath × Nat)) :=
  match src with
  | .dir _ =>
      match calcDirHashesE src desel with
      | .ok m => .ok m
      | .error e => .error ("Failed to calculate hash for source: " ++ e)
  | .file r h =>
      match hashFileE r h with
      | .ok hv => .ok [([srcName], hv)]
      | .error e => .error ("Failed to calculate hash for source: " ++ e)

/-- Association-list manifest comparison of `_verifyHashesAgainstSources`:
every source key must exist in the destination with the same digest and the
destination must have no extra keys. -/
def manifestsMatch (srcM destM : List (RPath × Nat)) : Bool :=
  srcM.all (fun kv =>
    match destM.lookup kv.1 with
    | some h2 => decide (h2 = kv.2)
    | none => false)
  && destM.all (fun kv => (srcM.lookup kv.1).isSome)

/-- `_removeRecursive` of the subtree at relative path `p`; `none` means the
whole entry was removed (`p = []`); removing a missing path changes nothing
(the caller guards with `fs.access` anyway). -/
def removeAt : FSEntry → RPath → Option FSEntry
  | _, [] => none
  | .file r h, _ :: _ => some (.file r h)
  | .dir cs, [n] => some (.dir (cs.filter (fun x => x.1 ≠ n)))
  | .dir cs, n :: m :: q =>
      some (.dir (cs.map (fun x =>
        if x.1 = n then (x.1, (removeAt x.2 (m :: q)).getD x.2) else x)))

/-- Events a backup job performs on the filesystem, in order. -/
inductive BEv : Type where
  | mkdirOutput : BEv
  | mkdirTemp : BEv
  | hashSource : BEv
  | removeDest : BEv
  | copyToFinal : BEv
  | copyToTemp : BEv
  | removeExcluded (p : RPath) : BEv
  | verify (ok : Bool) : BEv
  | moveTempToFinal : BEv
  | cleanupTemp : BEv
deriving DecidableEq

/-- The deselected-item removal loop of `_createSingleBackup`: each deselected
path inside the source is removed from the copied destination if it is still
present there (`fs.access` guard), emitting one removal event per hit. -/
def applyRemovalsE (dest : Option FSEntry) (desel : List RPath) :
    Option FSEntry × List BEv :=
  desel.foldl
    (fun acc p =>
      match acc.1 with
      | none => acc
      | some e =>
          if (findEntry e p).isSome then (removeAt e p, acc.2 ++ [.removeExcluded p])
          else acc)
    (dest, [])

/-- `_verifyHashesAgainstSources` (single, `isPacked = false`): a directory
destination is re-hashed with NO deselected filtering; a file destination is
hashed and compared under the single source key; any error yields invalid. -/
def verifyAgainstSourcesSingle (srcM : List (RPath × Nat)) :
    Option FSEntry → Bool
  | none => false
  | some (.dir cs) =>
      match calcDirHashesE (.dir cs) [] with
      | .error _ => false
      | .ok destM => manifestsMatch srcM destM
  | some (.file r h) =>
      match srcM with
      | [kv] =>
          match hashFileE r h with
          | .error _ => false
          | .ok dh => manifestsMatch srcM [(kv.1, dh)]
      | _ => manifestsMatch srcM []

/-- `_createSingleBackup source tempDir finalDst force …`: hash the source;
if forcing and the destination exists, delete it NOW; copy the source directly
to the final destination; remove deselected items from the destination when it
is a directory; hash-verify last.  Returns the event trace and the outcome. -/
def createSingleBackup (srcName : FName) (src : FSEntry)
    (destExists force : Bool) (desel : List RPath) :
    List BEv × Except String Unit :=
  match calcSourceHashesSingle srcName src desel with
  | .error e => ([.hashSource], .error e)
  | .ok srcM =>
    let evs := [BEv.hashSource]
    let evs := if force && destExists then evs ++ [BEv.removeDest] else evs
    if !allReadable src then (evs ++ [BEv.copyToFinal], .error "copy failed")
    else
      let evs := evs ++ [BEv.copyToFinal]
      let isDirDest := match src with | .dir _ => true | .file _ _ => false
      let rem :=
        if isDirDest && !desel.isEmpty then applyRemovalsE (some src) desel
        else (some src, [])
      let evs := evs ++ rem.2
      let ok := verifyAgainstSourcesSingle srcM rem.1
      (evs ++ [BEv.verify ok],
       if ok then .ok () else .error "Hash verification failed")

/-- Split a character list at every occurrence of `c` (like `splitOn`). -/
def splitOnChar (c : Char) : List Char → List (List Char)
  | [] => [[]]
  | x :: xs =>
      let r := splitOnChar c xs
      if x = c then [] :: r
      else
        match r with
        | [] => [[x]]
        | y :: ys => (x :: y) :: ys

/-- `path.basename`: the part after the last separator. -/
def basename (s : String) : String :=
  match (splitOnChar '/' s.toList).getLast? with
  | some x => ⟨x⟩
  | none => s

/-- JS `folderName.trim() === ''` (or a missing folder name): every character
is whitespace. -/
def isBlankStr (s : String) : Bool := s.toList.all Char.isWhitespace

/-- Index of the last dot in a list of characters, if any. -/
def lastDotPos (cs : List Char) : Option Nat :=
  ((List.range cs.length).filter (fun i => cs.getD i ' ' = '.')).getLast?

/-- `path.parse` stem/extension split: the extension starts at the last dot,
except that a leading dot (dotfile) does not open an extension. -/
def splitExt (leaf : String) : String × String :=
  let cs := leaf.toList
  match lastDotPos cs with
  | some i => if 0 < i then (⟨cs.take i⟩, ⟨cs.drop i⟩) else (leaf, "")
  | none => (leaf, "")

/-- `_calculateDestinationName`: packed backups require a non-blank folder
name and use `{folderName}{suffix}{version}`; a single unpacked source uses
`{stem}{suffix}{version}{extension}` of its basename. -/
def calculateDestinationName (sources : List String) (shouldPack : Bool)
    (folderName suffix version : String) : Except String String :=
  if shouldPack then
    if isBlankStr folderName then
      .error "Folder name is required when packing files"
    else .ok (folderName ++ suffix ++ version)
  else
    let srcLeaf := basename (sources.headD "")
    let parts := splitExt srcLeaf
    .ok (parts.1 ++ suffix ++ version ++ parts.2)

/-- Whether an `Except` is a success. -/
def exOk {α : Type} : Except String α → Bool
  | .ok _ => true
  | .error _ => false

/-- Backup job options as passed to `createBackup` (empty strings model the
falsy missing values of the JS options object). -/
structure BackupOpts where
  sources : List String
  outputDir : String
  version : String
  packFiles : Bool
  folderName : String
  suffix : String
  force : Bool

/-- Abstract state of the world the job runs against: whether the output
directory already exists, whether every listed source exists, and whether the
computed destination path already exists. -/
structure BackupWorld where
  outputDirExists : Bool
  sourcesAllExist : Bool
  destExists : Bool

/-- `sources.length > 1 || packFiles`. -/
def shouldPackOf (o : BackupOpts) : Bool :=
  decide (1 < o.sources.length) || o.packFiles

/-- Which events mutate the filesystem in a given world: `mkdir -p` of an
already existing output directory changes nothing, hashing and verification
never write, everything else does. -/
def mutatesB (w : BackupWorld) : BEv → Bool
  | .mkdirOutput => !w.outputDirExists
  | .hashSource => false
  | .verify _ => false
  | _ => true

/-
`createBackup`: validations in source order — sources list, output dir,
version; then `fs.mkdir(outputDir, {recursive:true})`; then source existence;
then the destination name (where the folder-name validation lives); then the
destination-exists-without-force check; then the temp directory is created and
the packed or single flow runs, with best-effort temp cleanup afterwards.
The packed flow (`_createPackedBackup`) is modelled at event granularity with
its verification outcome abstracted by the `packedOk` parameter, since no
claim depends on the packed internals; `srcName`/`srcTree` give the content of
`sources[0]` for the single flow.
-/
def createBackupRun (o : BackupOpts) (w : BackupWorld) (srcName : FName)
    (srcTree : FSEntry) (desel : List RPath) (packedOk : Bool) :
    List BEv × Except String Unit :=
  if o.sources = [] then ([], .error "No sources specified")
  else if o.outputDir = "" then ([], .error "No output directory specified")
  else if o.version = "" then ([], .error "No version specified")
  else
    let evs := [BEv.mkdirOutput]
    if !w.sourcesAllExist then (evs, .error "Source not found")
    else
      match calculateDestinationName o.sources (shouldPackOf o) o.folderName
          o.suffix o.version with
      | .error e => (evs, .error e)
      | .ok _ =>
        if w.destExists && !o.force then
          (evs, .error "destination already exists")
        else
          let evs := evs ++ [BEv.mkdirTemp]
          if shouldPackOf o then
            let evs := evs ++ [BEv.hashSource]
            let evs :=
              if o.force && w.destExists then evs ++ [BEv.removeDest] else evs
            let evs := evs ++ [BEv.copyToTemp, BEv.verify packedOk]
            if packedOk then
              (evs ++ [BEv.moveTempToFinal, BEv.cleanupTemp], .ok ())
            else (evs ++ [BEv.cleanupTemp], .error "Hash verification failed")
          else
            let sub := createSingleBackup srcName srcTree w.destExists o.force
              desel
            (evs ++ sub.1 ++ [BEv.cleanupTemp], sub.2)

/-!
Transfer ("send") engine (`sendFiles`)

Each selected root is processed in its own try/catch: a success bumps
`successCount`, a failure bumps `errorCount` and appends one message; the loop
always continues.  Whether a given root transfers successfully is abstracted by
the oracle `ok` (source exists and its filtered recursive copy succeeds).
-/

structure SendResult where
  successCount : Nat
  errorCount : Nat
  errors : List String
deriving DecidableEq

def sendStep (ok : String → Bool) (r : SendResult) (s : String) : SendResult :=
  if ok s then { r with successCount := r.successCount + 1 }
  else
    { r with
      errorCount := r.errorCount + 1
      errors := r.errors ++ ["Failed to send " ++ s] }

def sendFiles (sources : List String) (sendingDir : String)
    (sendingDirExists : Bool) (ok : String → Bool) :
    Except String SendResult :=
  if sources = [] then .error "No sources selected"
  else if sendingDir = "" then .error "No sending directory configured"
  else if !sendingDirExists then
    .error "Sending directory does not exist"
  else .ok (sources.foldl (sendStep ok) ⟨0, 0, []⟩)

/-!
Path and filesystem lemmas
-/

theorem mem_ancestorsOf {a p : RPath} :
    a ∈ ancestorsOf p ↔ a <+: p ∧ a ≠ p := by
  unfold ancestorsOf
  simp only [List.mem_map, List.mem_range]
  constructor
  · rintro ⟨k, hk, rfl⟩
    refine ⟨List.take_prefix k p, ?_⟩
    intro h
    have hlen := congrArg List.length h
    simp only [List.length_take] at hlen
    omega
  · rintro ⟨hpre, hne⟩
    refine ⟨a.length, ?_, ?_⟩
    · have hle := hpre.length_le
      rcases Nat.lt_or_ge a.length p.length with h | h
      · exact h
      · exfalso
        apply hne
        exact hpre.eq_of_length (Nat.le_antisymm hle h)
    · exact (List.prefix_iff_eq_take.mp hpre).symm

theorem descOf_iff {a q : RPath} :
    descOf a q = true ↔ a <+: q ∧ q ≠ a := by
  unfold descOf
  simp [List.isPrefixOf_iff_prefix]

theorem descOf_eq_false_iff {a q : RPath} :
    descOf a q = false ↔ ¬ (a <+: q ∧ q ≠ a) := by
  rw [← Bool.not_eq_true, descOf_iff]

theorem mem_ancestorsOf_iff_descOf {a p : RPath} :
    a ∈ ancestorsOf p ↔ descOf a p = true := by
  rw [mem_ancestorsOf, descOf_iff]
  constructor
  · rintro ⟨h1, h2⟩; exact ⟨h1, fun h => h2 h.symm⟩
  · rintro ⟨h1, h2⟩; exact ⟨h1, fun h => h2 h.symm⟩

theorem findEntry_append (e : FSEntry) (p q : RPath) :
    findEntry e (p ++ q) =
      match findEntry e p with
      | some e2 => findEntry e2 q
      | none => none := by
  induction p generalizing e with
  | nil => simp [findEntry]
  | cons n p ih =>
    match e with
    | .file r h => simp [findEntry]
    | .dir cs =>
      show findChild cs n (p ++ q) = _
      rw [show findEntry (FSEntry.dir cs) (n :: p) = findChild cs n p from rfl]
      induction cs with
      | nil => simp [findChild]
      | cons hd rest ihcs =>
        match hd with
        | (m, c) =>
          by_cases hmn : m = n
          · simp only [findChild, if_pos hmn]
            exact ih c
          · simp only [findChild, if_neg hmn]
            exact ihcs

mutual
theorem ne_nil_of_mem_subPaths : ∀ (e : FSEntry) (q : RPath),
    q ∈ subPaths e → q ≠ []
  | .file _ _, q, hq => by simp [subPaths] at hq
  | .dir cs, q, hq =>
      ne_nil_of_mem_subPathsList cs q (by simpa [subPaths] using hq)
theorem ne_nil_of_mem_subPathsList : ∀ (cs : List (FName × FSEntry))
    (q : RPath), q ∈ subPathsList cs → q ≠ []
  | [], q, hq => by simp [subPathsList] at hq
  | (n, c) :: rest, q, hq => by
      simp only [subPathsList, List.mem_append, List.mem_cons,
        List.mem_map] at hq
      rcases hq with (rfl | ⟨r, _, rfl⟩) | hq
      · simp
      · simp
      · exact ne_nil_of_mem_subPathsList rest q hq
end

mutual
theorem mem_subPaths_of_found : ∀ (e : FSEntry) (q : RPath), q ≠ [] →
    (findEntry e q).isSome = true → q ∈ subPaths e
  | .file _ _, q, hq, hf => by
      match q, hq with
      | n :: q', _ => simp [findEntry] at hf
  | .dir cs, q, hq, hf => by
      match q, hq with
      | n :: q', _ =>
        have hx : (findChild cs n q').isSome = true := by
          simpa [findEntry] using hf
        simpa [subPaths] using mem_subPathsList_of_found cs n q' hx
theorem mem_subPathsList_of_found : ∀ (cs : List (FName × FSEntry))
    (n : FName) (q : RPath), (findChild cs n q).isSome = true →
    n :: q ∈ subPathsList cs
  | [], n, q, hf => by simp [findChild] at hf
  | (m, c) :: rest, n, q, hf => by
      by_cases hmn : m = n
      · subst hmn
        rw [findChild, if_pos rfl] at hf
        match q with
        | [] => simp [subPathsList]
        | x :: q' =>
          have h2 := mem_subPaths_of_found c (x :: q') (by simp) hf
          simp only [subPathsList, List.mem_append, List.mem_cons,
            List.mem_map]
          exact Or.inl (Or.inr ⟨x :: q', h2, rfl⟩)
      · rw [findChild, if_neg hmn] at hf
        have h2 := mem_subPathsList_of_found rest n q hf
        simp only [subPathsList, List.mem_append]
        exact Or.inr h2
end

theorem descOf_of_mem_descendantPathsAt {t : FSEntry} {p p' : RPath}
    (h : p' ∈ descendantPathsAt t p) : descOf p p' = true := by
  unfold descendantPathsAt at h
  cases hfe : findEntry t p with
  | none => rw [hfe] at h; simp at h
  | some e =>
    rw [hfe] at h
    simp only [List.mem_map] at h
    obtain ⟨q, hq, rfl⟩ := h
    have hne := ne_nil_of_mem_subPaths e q hq
    rw [descOf_iff]
    refine ⟨List.prefix_append p q, ?_⟩
    intro hcontra
    have := congrArg List.length hcontra
    simp only [List.length_append] at this
    have : q.length = 0 := by omega
    exact hne (List.length_eq_zero.mp this)

theorem mem_descendantPathsAt_of_found {t : FSEntry} {p p' : RPath}
    (hdesc : descOf p p' = true) (hex : existsAt t p' = true) :
    p' ∈ descendantPathsAt t p := by
  rw [descOf_iff] at hdesc
  obtain ⟨⟨q, rfl⟩, hne⟩ := hdesc
  have hq : q ≠ [] := by
    intro h; subst h; simp at hne
  unfold existsAt at hex
  rw [findEntry_append] at hex
  unfold descendantPathsAt
  cases hfe : findEntry t p with
  | none => rw [hfe] at hex; simp at hex
  | some e =>
    rw [hfe] at hex
    simp only [List.mem_map]
    exact ⟨q, mem_subPaths_of_found e q hq (by simpa using hex), rfl⟩

theorem findChild_name_mem : ∀ (cs : List (FName × FSEntry)) (n : FName)
    (q : RPath), (findChild cs n q).isSome = true → n ∈ cs.map Prod.fst
  | [], n, q, hf => by simp [findChild] at hf
  | (m, c) :: rest, n, q, hf => by
      by_cases hmn : m = n
      · simp [hmn]
      · rw [findChild, if_neg hmn] at hf
        simp only [List.map_cons, List.mem_cons]
        exact Or.inr (findChild_name_mem rest n q hf)

theorem mem_childNames_of_found {t : FSEntry} {p : RPath} {n : FName}
    {q : RPath} (h : (findEntry t (p ++ n :: q)).isSome = true) :
    n ∈ childNames t p := by
  rw [findEntry_append] at h
  cases hfe : findEntry t p with
  | none => rw [hfe] at h; simp at h
  | some e =>
    rw [hfe] at h
    match e with
    | .file r hsh => simp [findEntry] at h
    | .dir cs =>
      have hx : (findChild cs n q).isSome = true := by
        simpa [findEntry] using h
      have := findChild_name_mem cs n q hx
      simpa [childNames, hfe] using this

theorem isDirAt_of_found_strict {t : FSEntry} {p : RPath} {n : FName}
    {q : RPath} (h : (findEntry t (p ++ n :: q)).isSome = true) :
    isDirAt t p = true := by
  rw [findEntry_append] at h
  cases hfe : findEntry t p with
  | none => rw [hfe] at h; simp at h
  | some e =>
    rw [hfe] at h
    match e with
    | .file r hsh => simp [findEntry] at h
    | .dir cs => simp [isDirAt, hfe]

/-!
Selection-model computation lemmas
-/

theorem selState_ite_pack_selected (c : Prop) [Decidable c] (X : SelState) :
    (if c then { X with packFiles := true } else X).selected = X.selected := by
  split <;> rfl

theorem selState_ite_pack_deselected (c : Prop) [Decidable c] (X : SelState) :
    (if c then { X with packFiles := true } else X).deselected =
      X.deselected := by
  split <;> rfl

theorem toggleSelection_selected (t : FSEntry) (S : SelState) (p : RPath) :
    (toggleSelection t S p).selected =
      (if isItemSelected S p then deselectItem t S p
       else if isDirAt t p then selectFolder S p
       else selectFile t S p).selected := by
  unfold toggleSelection
  dsimp only
  rw [selState_ite_pack_selected]
  split
  · rfl
  · rw [selState_ite_pack_selected]

theorem toggleSelection_deselected (t : FSEntry) (S : SelState) (p : RPath) :
    (toggleSelection t S p).deselected =
      (if isItemSelected S p then deselectItem t S p
       else if isDirAt t p then selectFolder S p
       else selectFile t S p).deselected := by
  unfold toggleSelection
  dsimp only
  rw [selState_ite_pack_deselected]
  split
  · rfl
  · rw [selState_ite_pack_deselected]

theorem selectFolder_packFiles (S : SelState) (p : RPath) :
    (selectFolder S p).packFiles = S.packFiles := by
  unfold selectFolder
  dsimp only
  split <;> rfl

theorem checkAndSelectParent_packFiles (t : FSEntry) (S : SelState)
    (p : RPath) :
    (checkAndSelectParentIfAllSiblingsSelected t S p).packFiles =
      S.packFiles := by
  unfold checkAndSelectParentIfAllSiblingsSelected
  dsimp only
  split
  · rfl
  · split
    · rw [selectFolder_packFiles]
    · rfl

theorem selectFile_packFiles (t : FSEntry) (S : SelState) (p : RPath) :
    (selectFile t S p).packFiles = S.packFiles := by
  unfold selectFile
  dsimp only
  split
  · rfl
  · rw [checkAndSelectParent_packFiles]

theorem checkAndDeselectParent_packFiles (t : FSEntry) (S : SelState)
    (parent : RPath) :
    (checkAndDeselectParentIfNoChildrenSelected t S parent).packFiles =
      S.packFiles := by
  unfold checkAndDeselectParentIfNoChildrenSelected
  dsimp only
  split <;> rfl

theorem deselectItem_packFiles (t : FSEntry) (S : SelState) (p : RPath) :
    (deselectItem t S p).packFiles = S.packFiles := by
  unfold deselectItem
  dsimp only
  split
  · split <;> rfl
  · split
    · split
      · rw [checkAndDeselectParent_packFiles]; rfl
      · rfl
    · split
      · rw [checkAndDeselectParent_packFiles]
      · rfl

theorem dirSelect_packFiles (t : FSEntry) (S : SelState) (p : RPath) :
    (if isDirAt t p then selectFolder S p else selectFile t S p).packFiles =
      S.packFiles := by
  split
  · rw [selectFolder_packFiles]
  · rw [selectFile_packFiles]

/-- C10: every call to `toggleSelection` either leaves the persisted
`packFiles` flag unchanged or flips it from `false` to `true` — exactly when
the workspace root is being selected or the selected set afterwards has more
than one entry — and never sets it from `true` back to `false`. -/
theorem c10_packfiles_monotone (t : FSEntry) (S : SelState) (p : RPath) :
    (toggleSelection t S p).packFiles =
      (S.packFiles || (!(isItemSelected S p) && decide (p = ([] : RPath))) ||
        decide (1 < (toggleSelection t S p).selected.card)) := by
  conv_rhs => rw [toggleSelection_selected]
  unfold toggleSelection
  dsimp only
  by_cases hw : isItemSelected S p = true
  · rw [if_pos hw, if_pos hw]
    simp only [hw, Bool.not_true, Bool.false_and, Bool.or_false]
    by_cases hc : 1 < (deselectItem t S p).selected.card <;>
      by_cases hsp : S.packFiles = true <;>
        simp [hc, hsp, deselectItem_packFiles]
  · rw [if_neg hw, if_neg hw]
    have hwf : isItemSelected S p = false := by
      cases h : isItemSelected S p
      · rfl
      · exact absurd h hw
    simp only [hwf, Bool.not_false, Bool.true_and]
    rw [selState_ite_pack_selected]
    by_cases hp : p = ([] : RPath) <;>
      by_cases hsp : S.packFiles = true <;>
        by_cases hc :
          1 < (if isDirAt t p then selectFolder S p
               else selectFile t S p).selected.card <;>
      simp [hp, hsp, hc, dirSelect_packFiles]

theorem sendFold_counts (ok : String → Bool) :
    ∀ (l : List String) (r : SendResult),
      ((l.foldl (sendStep ok) r).successCount +
          (l.foldl (sendStep ok) r).errorCount =
        r.successCount + r.errorCount + l.length) ∧
      ((l.foldl (sendStep ok) r).errors.length + r.errorCount =
        r.errors.length + (l.foldl (sendStep ok) r).errorCount)
  | [], r => by simp
  | s :: l, r => by
      have ih := sendFold_counts ok l (sendStep ok r s)
      by_cases h : ok s = true <;>
        simp only [List.foldl_cons, sendStep, h, if_true, if_false,
          Bool.false_eq_true, List.length_cons, List.length_append,
          List.length_cons, List.length_nil] at ih ⊢ <;>
        omega

/-- C9: a transfer invocation with a nonempty source list and a configured,
existing sending directory returns a per-root record with
`successCount + errorCount` equal to the number of roots and one error string
per failing root — one root's failure never aborts the batch. -/
theorem c9_send_counts (sources : List String) (sendingDir : String)
    (ok : String → Bool) (h1 : sources ≠ []) (h2 : sendingDir ≠ "") :
    ∃ r, sendFiles sources sendingDir true ok = .ok r ∧
      r.successCount + r.errorCount = sources.length ∧
      r.errors.length = r.errorCount := by
  refine ⟨sources.foldl (sendStep ok) ⟨0, 0, []⟩, ?_, ?_, ?_⟩
  · unfold sendFiles
    rw [if_neg h1, if_neg h2]
    simp
  · have h := (sendFold_counts ok sources ⟨0, 0, []⟩).1
    simpa using h
  · have h := (sendFold_counts ok sources ⟨0, 0, []⟩).2
    simpa using h

theorem c9_send_counts_witness :
    ∃ r, sendFiles ["a", "b"] "out" true (fun s => decide (s = "a")) = .ok r ∧
      r.successCount + r.errorCount = (["a", "b"] : List String).length ∧
      r.errors.length = r.errorCount :=
  c9_send_counts ["a", "b"] "out" (fun s => decide (s = "a")) (by decide)
    (by decide)

deriving instance DecidableEq for Except

/-- C6 counterexample: at the spec's own example input
(`sources = ["/a/file.txt"]`, `suffix = "v"`, `version = "2"`) the unpacked
destination name computed by `_calculateDestinationName` is not
"file_v2.txt". -/
theorem c6_counterexample :
    calculateDestinationName ["/a/file.txt"] false "Backup" "v" "2" ≠
      Except.ok "file_v2.txt" := by decide

/-- C6 (amended): the unpacked destination name is
`{stem}{suffix}{version}{extension}` of the single root's basename; in
particular, at the example input the name is "filev2.txt" (the suffix and
version go between the stem and the extension), not "file.txtv2". -/
theorem c6_amended :
    (∀ (src : String) (rest : List String)
        (folderName suffix version : String),
      calculateDestinationName (src :: rest) false folderName suffix version =
        .ok ((splitExt (basename src)).1 ++ suffix ++ version ++
          (splitExt (basename src)).2)) ∧
    calculateDestinationName ["/a/file.txt"] false "Backup" "v" "2" =
      .ok "filev2.txt" ∧
    "filev2.txt" ≠ "file.txtv2" := by
  refine ⟨?_, by decide, by decide⟩
  intro src rest folderName suffix version
  rfl

/-- Temporal rendering of the claim "the existing destination is deleted only
after the new content passes hash verification": a destination-removal event
may only occur after a passed-verification event (the flag carries whether one
has been seen). -/
def removesDestOnlyAfterVerifiedOk : List BEv → Bool → Bool
  | [], _ => true
  | .verify true :: rest, _ => removesDestOnlyAfterVerifiedOk rest true
  | .removeDest :: rest, seen => seen && removesDestOnlyAfterVerifiedOk rest seen
  | _ :: rest, seen => removesDestOnlyAfterVerifiedOk rest seen

/-- Temporal rendering of "no partially-copied content is ever visible under
the final destination name before verification passes": a write to the final
destination name may only occur after a passed-verification event. -/
def noFinalWriteBeforeVerifiedOk : List BEv → Bool → Bool
  | [], _ => true
  | .verify true :: rest, _ => noFinalWriteBeforeVerifiedOk rest true
  | .copyToFinal :: rest, seen => seen && noFinalWriteBeforeVerifiedOk rest seen
  | _ :: rest, seen => noFinalWriteBeforeVerifiedOk rest seen

def c1src : FSEntry := .dir [("file.txt", .file true 1)]

/-- C1 counterexample: for a concrete single-source force-overwrite job whose
destination already exists, `_createSingleBackup` deletes the existing
destination before any verification event, and writes the new content under
the final destination name before verification — refuting both temporal parts
of the claim. -/
theorem c1_counterexample :
    removesDestOnlyAfterVerifiedOk
        (createSingleBackup "file.txt" c1src true true []).1 false = false ∧
    noFinalWriteBeforeVerifiedOk
        (createSingleBackup "file.txt" c1src true true []).1 false = false := by
  decide

/-- C1 (amended): in the single-source flow with `force` and an existing
destination, the existing destination is deleted right after source hashing
and BEFORE the copy, and the copy writes directly under the final destination
name with verification only afterwards (the first three trace events are
hash, delete-destination, copy-to-final); while a job whose destination
already exists without `force` fails validation with the filesystem untouched
(its only event is the no-op `mkdir -p` of the output directory, which exists
because the destination inside it exists). -/
theorem c1_amended :
    (∀ (srcName : FName) (src : FSEntry) (desel : List RPath),
      exOk (calcSourceHashesSingle srcName src desel) = true →
      (createSingleBackup srcName src true true desel).1.take 3 =
        [BEv.hashSource, BEv.removeDest, BEv.copyToFinal]) ∧
    (∀ (o : BackupOpts) (w : BackupWorld) (srcName : FName)
        (srcTree : FSEntry) (desel : List RPath) (packedOk : Bool),
      w.destExists = true → o.force = false → w.outputDirExists = true →
      o.sources ≠ [] → o.outputDir ≠ "" → o.version ≠ "" →
      w.sourcesAllExist = true →
      exOk (calculateDestinationName o.sources (shouldPackOf o) o.folderName
        o.suffix o.version) = true →
      (createBackupRun o w srcName srcTree desel packedOk).2 =
          .error "destination already exists" ∧
      (createBackupRun o w srcName srcTree desel packedOk).1.all
          (fun e => !mutatesB w e) = true) := by
  constructor
  · intro srcName src desel h
    unfold createSingleBackup
    cases hc : calcSourceHashesSingle srcName src desel with
    | error e => rw [hc] at h; simp [exOk] at h
    | ok m =>
      dsimp only
      by_cases hr : allReadable src = true <;>
        simp [hr, List.take_append, List.take]
  · intro o w srcName srcTree desel packedOk hdest hforce hout hs1 hs2 hs3
      hsrc hnm
    unfold createBackupRun
    rw [if_neg hs1, if_neg hs2, if_neg hs3]
    simp only [hsrc, Bool.not_true, Bool.false_eq_true, if_false]
    cases hn : calculateDestinationName o.sources (shouldPackOf o)
        o.folderName o.suffix o.version with
    | error e => rw [hn] at hnm; simp [exOk] at hnm
    | ok nm =>
      simp only [hdest, hforce, Bool.not_false, Bool.and_true, if_true]
      constructor
      · trivial
      · simp [mutatesB, hout]

def c7opts : BackupOpts := ⟨["/src/a"], "/out", "1", true, "", "v", false⟩
def c7world : BackupWorld := ⟨false, true, false⟩

/-- C7 counterexample: a job rejected by the missing-folder-name validation
(packing, blank folder name) has already performed a filesystem mutation when
the output directory did not yet exist: `fs.mkdir(outputDir)` runs before the
folder-name check. -/
theorem c7_counterexample :
    (createBackupRun c7opts c7world "a" (.file true 1) [] true).2 =
        .error "Folder name is required when packing files" ∧
    (createBackupRun c7opts c7world "a" (.file true 1) [] true).1.any
        (fun e => mutatesB c7world e) = true := by decide

/-- C7 (amended): the missing-sources / missing-output-dir / empty-version
validations are reported before any filesystem operation; the
missing-folder-name and destination-exists checks run only after the output
directory has been ensured to exist (created if missing), so a
missing-folder-name rejection may have created the output directory as its
single event, while a destination-exists-without-force rejection performs no
mutation because the destination's existence entails the output directory
already existed. -/
theorem c7_amended :
    (∀ (o : BackupOpts) (w : BackupWorld) (srcName : FName)
        (srcTree : FSEntry) (desel : List RPath) (packedOk : Bool),
      (o.sources = [] ∨ o.outputDir = "" ∨ o.version = "") →
      (createBackupRun o w srcName srcTree desel packedOk).1 = [] ∧
      exOk (createBackupRun o w srcName srcTree desel packedOk).2 = false) ∧
    (∀ (o : BackupOpts) (w : BackupWorld) (srcName : FName)
        (srcTree : FSEntry) (desel : List RPath) (packedOk : Bool),
      o.sources ≠ [] → o.outputDir ≠ "" → o.version ≠ "" →
      w.sourcesAllExist = true → shouldPackOf o = true →
      isBlankStr o.folderName = true →
      createBackupRun o w srcName srcTree desel packedOk =
        ([BEv.mkdirOutput],
         .error "Folder name is required when packing files")) ∧
    (∀ (o : BackupOpts) (w : BackupWorld) (srcName : FName)
        (srcTree : FSEntry) (desel : List RPath) (packedOk : Bool),
      o.sources ≠ [] → o.outputDir ≠ "" → o.version ≠ "" →
      w.sourcesAllExist = true →
      exOk (calculateDestinationName o.sources (shouldPackOf o) o.folderName
        o.suffix o.version) = true →
      w.destExists = true → o.force = false → w.outputDirExists = true →
      (createBackupRun o w srcName srcTree desel packedOk).2 =
          .error "destination already exists" ∧
      (createBackupRun o w srcName srcTree desel packedOk).1.all
          (fun e => !mutatesB w e) = true) := by
  refine ⟨?_, ?_, ?_⟩
  · intro o w srcName srcTree desel packedOk h
    unfold createBackupRun
    rcases h with h | h | h
    · rw [if_pos h]; exact ⟨rfl, rfl⟩
    · by_cases h1 : o.sources = []
      · rw [if_pos h1]; exact ⟨rfl, rfl⟩
      · rw [if_neg h1, if_pos h]; exact ⟨rfl, rfl⟩
    · by_cases h1 : o.sources = []
      · rw [if_pos h1]; exact ⟨rfl, rfl⟩
      · by_cases h2 : o.outputDir = ""
        · rw [if_neg h1, if_pos h2]; exact ⟨rfl, rfl⟩
        · rw [if_neg h1, if_neg h2, if_pos h]; exact ⟨rfl, rfl⟩
  · intro o w srcName srcTree desel packedOk h1 h2 h3 hsrc hpack hblank
    unfold createBackupRun
    rw [if_neg h1, if_neg h2, if_neg h3]
    simp only [hsrc, Bool.not_true, Bool.false_eq_true, if_false]
    unfold calculateDestinationName
    rw [hpack]
    simp only [hblank, if_true]
  · intro o w srcName srcTree desel packedOk h1 h2 h3 hsrc hnm hdest hforce
      hout
    unfold createBackupRun
    rw [if_neg h1, if_neg h2, if_neg h3]
    simp only [hsrc, Bool.not_true, Bool.false_eq_true, if_false]
    cases hn : calculateDestinationName o.sources (shouldPackOf o)
        o.folderName o.suffix o.version with
    | error e => rw [hn] at hnm; simp [exOk] at hnm
    | ok nm =>
      simp only [hdest, hforce, Bool.not_false, Bool.and_true, if_true]
      exact ⟨by trivial, by simp [mutatesB, hout]⟩

mutual
theorem calcEntryHashes_sound : ∀ (e : FSEntry) (cur : RPath)
    (desel : List RPath) (p : RPath) (h : Nat), wfFS e = true →
    (p, h) ∈ calcEntryHashes cur desel e →
    ∃ q, p = cur ++ q ∧ findEntry e q = some (.file true h)
  | .file r hsh, cur, desel, p, h, hwf, hmem => by
      unfold calcEntryHashes at hmem
      match r with
      | true =>
        simp [hashFileE] at hmem
        obtain ⟨rfl, rfl⟩ := hmem
        exact ⟨[], by simp, by simp [findEntry]⟩
      | false =>
        simp [hashFileE] at hmem
  | .dir cs, cur, desel, p, h, hwf, hmem => by
      unfold calcEntryHashes at hmem
      have hnd : (cs.map Prod.fst).Nodup ∧ wfList cs = true := by
        unfold wfFS at hwf
        simp only [Bool.and_eq_true, decide_eq_true_eq] at hwf
        exact hwf
      obtain ⟨n, q, rfl, hfc⟩ :=
        calcChildHashes_sound cs cur desel p h hnd.1 hnd.2 hmem
      exact ⟨n :: q, rfl, by simpa [findEntry] using hfc⟩
theorem calcChildHashes_sound : ∀ (cs : List (FName × FSEntry)) (cur : RPath)
    (desel : List RPath) (p : RPath) (h : Nat),
    (cs.map Prod.fst).Nodup → wfList cs = true →
    (p, h) ∈ calcChildHashes cur desel cs →
    ∃ n q, p = cur ++ n :: q ∧ findChild cs n q = some (.file true h)
  | [], cur, desel, p, h, hnd, hwl, hmem => by
      simp [calcChildHashes] at hmem
  | (m, c) :: rest, cur, desel, p, h, hnd, hwl, hmem => by
      unfold calcChildHashes at hmem
      rw [List.mem_append] at hmem
      rw [List.map_cons] at hnd
      have hparts := List.nodup_cons.mp hnd
      have hwl' : wfFS c = true ∧ wfList rest = true := by
        unfold wfList at hwl
        simpa [Bool.and_eq_true] using hwl
      rcases hmem with hmem | hmem
      · have hmem2 : (p, h) ∈ calcEntryHashes (cur ++ [m]) desel c := by
          by_cases hex :
              desel.any (fun d => (cur ++ [m]).isPrefixOf d) = true
          · rw [if_pos hex] at hmem; simp at hmem
          · rw [if_neg hex] at hmem; exact hmem
        obtain ⟨q, rfl, hfe⟩ :=
          calcEntryHashes_sound c (cur ++ [m]) desel _ h hwl'.1 hmem2
        refine ⟨m, q, by simp, ?_⟩
        unfold findChild
        rw [if_pos rfl]
        exact hfe
      · obtain ⟨n, q, rfl, hfc⟩ :=
          calcChildHashes_sound rest cur desel p h hparts.2 hwl'.2 hmem
        have hne : m ≠ n := by
          intro hcontra
          apply hparts.1
          subst hcontra
          exact findChild_name_mem rest m q (by rw [hfc]; rfl)
        refine ⟨n, q, rfl, ?_⟩
        unfold findChild
        rw [if_neg hne]
        exact hfc
end

def c8tree : FSEntry := .dir [("bad.txt", .file false 7), ("good.txt", .file true 5)]

/-- C8 counterexample: the manifest walk of `_calculateDirectoryHashes` meets
a file whose hashing fails, yet reports success and silently omits that file —
the per-file error is swallowed (logged and skipped) rather than failing or
being surfaced by the computation. -/
theorem c8_counterexample :
    hasUnreadableFile c8tree = true ∧
    calcDirHashesE c8tree [] = .ok [(["good.txt"], 5)] := by decide

/-- C8 (amended): per-file hashing errors inside the directory-manifest walk
are caught and the file skipped: on a well-formed tree the computation always
returns a manifest, and every manifest entry is a file that hashed
successfully (readable, with its hash), so an unreadable file contributes
neither an entry nor an error — a mismatch can only be noticed later by
manifest comparison. -/
theorem c8_amended (cs : List (FName × FSEntry)) (desel : List RPath)
    (hwf : wfFS (.dir cs) = true) :
    ∃ m, calcDirHashesE (.dir cs) desel = .ok m ∧
      ∀ p h, (p, h) ∈ m → findEntry (.dir cs) p = some (.file true h) := by
  refine ⟨calcChildHashes [] desel cs, rfl, ?_⟩
  intro p h hmem
  have hnd : (cs.map Prod.fst).Nodup ∧ wfList cs = true := by
    unfold wfFS at hwf
    simpa [Bool.and_eq_true, decide_eq_true_eq] using hwf
  obtain ⟨n, q, rfl, hfc⟩ :=
    calcChildHashes_sound cs [] desel p h hnd.1 hnd.2 hmem
  simpa [findEntry] using hfc

theorem c8_amended_witness :
    ∃ m, calcDirHashesE
        (.dir [("bad.txt", .file false 7), ("good.txt", .file true 5)]) [] =
        .ok m ∧
      ∀ p h, (p, h) ∈ m →
        findEntry
          (.dir [("bad.txt", .file false 7), ("good.txt", .file true 5)]) p =
          some (.file true h) :=
  c8_amended [("bad.txt", .file false 7), ("good.txt", .file true 5)] []
    (by decide)

def c2src : FSEntry :=
  .dir [("a", .dir [("s1.txt", .file true 11),
                    ("b", .dir [("s2.txt", .file true 12),
                                ("c", .dir [("x.txt", .file true 13),
                                            ("y.txt", .file true 14)])])]),
        ("top.txt", .file true 15)]

def c2desel : List RPath := [["a", "b", "c", "x.txt"]]

/-- C2 (code bug, evaluated): excluding the single nested file `a/b/c/x.txt`
from a single-root backup whose tree has sibling files at every level makes
the job FAIL with a hash-verification error instead of completing: the
reversed prefix test of the manifest walk skips the whole `a` subtree from the
source manifest (first equation), the copy step removes only the excluded
file, and verification then reports the surviving siblings as unexpected
files; with no exclusions the same job succeeds (third equation). -/
theorem c2_code_bug_eval :
    calcSourceHashesSingle "r" c2src c2desel = .ok [(["top.txt"], 15)] ∧
    (createSingleBackup "r" c2src false false c2desel).2 =
      .error "Hash verification failed" ∧
    (createSingleBackup "r" c2src false false []).2 = .ok () := by decide

def c1wOpts : BackupOpts :=
  ⟨["/s/file.txt"], "/out", "2", false, "Backup", "v", false⟩

def c1wWorld : BackupWorld := ⟨true, true, true⟩

theorem c1_amended_witness :
    ((createSingleBackup "w.txt" (.file true 5) true true []).1.take 3 =
      [BEv.hashSource, BEv.removeDest, BEv.copyToFinal]) ∧
    ((createBackupRun c1wOpts c1wWorld "w.txt" (.file true 5) [] true).2 =
        .error "destination already exists" ∧
      (createBackupRun c1wOpts c1wWorld "w.txt" (.file true 5) [] true).1.all
        (fun e => !mutatesB c1wWorld e) = true) :=
  ⟨c1_amended.1 "w.txt" (.file true 5) [] (by decide),
   c1_amended.2 c1wOpts c1wWorld "w.txt" (.file true 5) [] true (by decide)
     (by decide) (by decide) (by decide) (by decide) (by decide) (by decide)
     (by decide)⟩

def c7vOpts : BackupOpts := ⟨[], "/out", "1", false, "", "v", false⟩

def c7pOpts : BackupOpts := ⟨["/s/a"], "/out", "1", true, "", "v", false⟩

def c7dOpts : BackupOpts := ⟨["/s/a"], "/out", "1", false, "Backup", "v", false⟩

def c7dWorld : BackupWorld := ⟨true, true, true⟩

theorem c7_amended_witness :
    ((createBackupRun c7vOpts c7dWorld "a" (.file true 1) [] true).1 = [] ∧
      exOk (createBackupRun c7vOpts c7dWorld "a" (.file true 1) [] true).2 =
        false) ∧
    (createBackupRun c7pOpts c7dWorld "a" (.file true 1) [] true =
      ([BEv.mkdirOutput],
       .error "Folder name is required when packing files")) ∧
    ((createBackupRun c7dOpts c7dWorld "a" (.file true 1) [] true).2 =
        .error "destination already exists" ∧
      (createBackupRun c7dOpts c7dWorld "a" (.file true 1) [] true).1.all
        (fun e => !mutatesB c7dWorld e) = true) :=
  ⟨c7_amended.1 c7vOpts c7dWorld "a" (.file true 1) [] true (Or.inl rfl),
   c7_amended.2.1 c7pOpts c7dWorld "a" (.file true 1) [] true (by decide)
     (by decide) (by decide) (by decide) (by decide) (by decide),
   c7_amended.2.2 c7dOpts c7dWorld "a" (.file true 1) [] true (by decide)
     (by decide) (by decide) (by decide) (by decide) (by decide) (by decide)
     (by decide)⟩

theorem siblingsOf_ne_self (t : FSEntry) (p : RPath) :
    ∀ s ∈ siblingsOf t p, s ≠ p := by
  unfold siblingsOf
  cases hl : p.getLast? with
  | none => simp
  | some leaf =>
    simp only [List.mem_map, List.mem_filter]
    rintro s ⟨n, ⟨hn, hne⟩, rfl⟩
    obtain ⟨l', rfl⟩ := List.getLast?_eq_some_iff.mp hl
    intro hcontra
    rw [List.dropLast_concat] at hcontra
    have := List.append_inj_right hcontra rfl
    simp only [List.cons.injEq] at this
    simp only [decide_eq_true_eq] at hne
    exact hne this.1

theorem isParentSelected_congr (S S' : SelState) (h : S.selected = S'.selected)
    (p : RPath) : isParentSelected S p = isParentSelected S' p := by
  unfold isParentSelected
  rw [h]

theorem selectFile_eq_of_no_foldup (t : FSEntry) (S : SelState) (p : RPath)
    (hroot : p ≠ []) (hpar : isParentSelected S p = false)
    (hguard : ¬ ((∀ s ∈ siblingsOf t p, s ∈ insert p S.selected) ∧
      siblingsOf t p ≠ [])) :
    selectFile t S p =
      ⟨insert p S.selected, S.deselected.erase p, S.packFiles⟩ := by
  unfold selectFile
  dsimp only
  rw [isParentSelected_congr ⟨S.selected, S.deselected.erase p, S.packFiles⟩ S
    rfl p, hpar]
  rw [if_neg (by simp)]
  unfold checkAndSelectParentIfAllSiblingsSelected
  dsimp only
  rw [if_neg hroot, if_neg hguard]

def t4 : FSEntry :=
  .dir [("P", .dir [("f", .file true 1), ("g", .file true 2)])]

def s4 : SelState := ⟨{["P", "g"]}, ∅, false⟩

/-- C4 counterexample: with directory `P` holding files `f`, `g` and the state
`included = {P/g}`, toggling `P/f` twice does NOT restore the prior pair of
sets: the first toggle folds the selection up to `{P}` and the second records
`P/f` in the deselected set, ending at `({P}, {P/f})` instead of
`({P/g}, {})`. -/
theorem c4_counterexample :
    ¬ ((toggleSelection t4 (toggleSelection t4 s4 ["P", "f"])
          ["P", "f"]).selected = s4.selected ∧
       (toggleSelection t4 (toggleSelection t4 s4 ["P", "f"])
          ["P", "f"]).deselected = s4.deselected) := by decide

/-- C4 (amended): toggling a node twice restores the exact prior pair of sets
for a file node that is not in either set, has no included ancestor, and whose
selection does not trigger the fold-up promotion (its siblings are not all
already included); in general the fold-up (and the parent fold-down on
deselect) can rewrite the representation, as the counterexample shows. -/
theorem c4_amended (t : FSEntry) (S : SelState) (p : RPath)
    (hfile : isDirAt t p = false) (hroot : p ≠ [])
    (hsel : p ∉ S.selected) (hdesel : p ∉ S.deselected)
    (hpar : isParentSelected S p = false)
    (hguard : ¬ ((∀ s ∈ siblingsOf t p, s ∈ S.selected) ∧
      siblingsOf t p ≠ [])) :
    (toggleSelection t (toggleSelection t S p) p).selected = S.selected ∧
    (toggleSelection t (toggleSelection t S p) p).deselected =
      S.deselected := by
  have hguard' : ¬ ((∀ s ∈ siblingsOf t p, s ∈ insert p S.selected) ∧
      siblingsOf t p ≠ []) := by
    intro ⟨hall, hne⟩
    apply hguard
    refine ⟨fun s hs => ?_, hne⟩
    rcases Finset.mem_insert.mp (hall s hs) with h | h
    · exact absurd h (siblingsOf_ne_self t p s hs)
    · exact h
  have hwas : isItemSelected S p = false := by
    unfold isItemSelected
    simp [hsel, hpar]
  have hfilestep := selectFile_eq_of_no_foldup t S p hroot hpar hguard'
  have h1sel : (toggleSelection t S p).selected = insert p S.selected := by
    rw [toggleSelection_selected, if_neg (by simp [hwas]),
      if_neg (by simp [hfile]), hfilestep]
  have h1desel : (toggleSelection t S p).deselected = S.deselected := by
    rw [toggleSelection_deselected, if_neg (by simp [hwas]),
      if_neg (by simp [hfile]), hfilestep]
    exact Finset.erase_eq_of_not_mem hdesel
  have hwas2 : isItemSelected (toggleSelection t S p) p = true := by
    unfold isItemSelected
    simp [h1sel]
  have hdes : deselectItem t (toggleSelection t S p) p =
      ⟨(toggleSelection t S p).selected.erase p,
       (toggleSelection t S p).deselected,
       (toggleSelection t S p).packFiles⟩ := by
    unfold deselectItem
    rw [if_pos (by rw [h1sel]; exact Finset.mem_insert_self p S.selected)]
    dsimp only
    rw [if_neg (by simp [hfile])]
  constructor
  · rw [toggleSelection_selected, if_pos hwas2, hdes, h1sel,
      Finset.erase_insert hsel]
  · rw [toggleSelection_deselected, if_pos hwas2, hdes, h1desel]

theorem c4_amended_witness :
    (toggleSelection t4 (toggleSelection t4 ⟨∅, ∅, false⟩ ["P", "f"])
        ["P", "f"]).selected = (⟨∅, ∅, false⟩ : SelState).selected ∧
    (toggleSelection t4 (toggleSelection t4 ⟨∅, ∅, false⟩ ["P", "f"])
        ["P", "f"]).deselected = (⟨∅, ∅, false⟩ : SelState).deselected :=
  c4_amended t4 ⟨∅, ∅, false⟩ ["P", "f"] (by decide) (by decide) (by decide)
    (by decide) (by decide) (by decide)

theorem length_lt_of_strict_prefix {a b : RPath} (h : a <+: b) (hne : a ≠ b) :
    a.length < b.length := by
  rcases Nat.lt_or_ge a.length b.length with hlt | hge
  · exact hlt
  · exact absurd (h.eq_of_length (Nat.le_antisymm h.length_le hge)) hne

theorem mem_ancestorsOf_dropLast {p : RPath} (hp : p ≠ []) {a : RPath}
    (ha : a ∈ ancestorsOf p.dropLast) : a ∈ ancestorsOf p := by
  rw [mem_ancestorsOf] at ha ⊢
  have hpre : a <+: p := ha.1.trans (List.dropLast_prefix p)
  refine ⟨hpre, ?_⟩
  have h1 : a.length < p.dropLast.length := length_lt_of_strict_prefix ha.1 ha.2
  have h2 : p.dropLast.length < p.length := by
    rw [List.length_dropLast]
    have : p.length ≠ 0 := fun h => hp (List.length_eq_zero.mp h)
    omega
  intro hcontra
  rw [hcontra] at h1
  omega

theorem dropLast_mem_ancestorsOf {p : RPath} (hp : p ≠ []) :
    p.dropLast ∈ ancestorsOf p := by
  rw [mem_ancestorsOf]
  refine ⟨List.dropLast_prefix p, ?_⟩
  intro hcontra
  have := congrArg List.length hcontra
  rw [List.length_dropLast] at this
  have : p.length ≠ 0 := fun h => hp (List.length_eq_zero.mp h)
  omega

theorem isParentSelected_prop {S : SelState} {p : RPath}
    (h : isParentSelected S p = false) :
    ∀ a ∈ ancestorsOf p, a ∉ S.selected := by
  unfold isParentSelected at h
  rw [List.any_eq_false] at h
  intro a ha
  have := h a ha
  simpa using this

theorem descOf_dropLast_self {p : RPath} (hp : p ≠ []) :
    descOf p.dropLast p = true := by
  rw [descOf_iff]
  refine ⟨List.dropLast_prefix p, ?_⟩
  intro hcontra
  have := congrArg List.length hcontra
  rw [List.length_dropLast] at this
  have : p.length ≠ 0 := fun h => hp (List.length_eq_zero.mp h)
  omega

/-- C5 (amended): when selecting a file whose siblings are all already
included (and that is not covered by an included ancestor), the parent is
promoted into the included set and every entry below the parent — the file and
its sibling entries — is removed; but the fold-up is single-level: every path
outside the parent's subtree (other than the parent itself), in particular the
grandparent, keeps exactly its previous membership. -/
theorem c5_amended (t : FSEntry) (S : SelState) (p : RPath)
    (hroot : p ≠ []) (hpar : isParentSelected S p = false)
    (hsibs : siblingsOf t p ≠ [])
    (hall : ∀ s ∈ siblingsOf t p, s ∈ S.selected) :
    p.dropLast ∈ (selectFile t S p).selected ∧
    (∀ q, descOf p.dropLast q = true → q ∉ (selectFile t S p).selected) ∧
    (∀ q, descOf p.dropLast q = false → q ≠ p.dropLast →
      (q ∈ (selectFile t S p).selected ↔ q ∈ S.selected)) := by
  have hparsel := isParentSelected_prop hpar
  have hparP : isParentSelected
      ⟨insert p S.selected,
       (S.deselected.erase p).erase p.dropLast, S.packFiles⟩ p.dropLast =
      false := by
    unfold isParentSelected
    rw [List.any_eq_false]
    intro a ha
    simp only [decide_eq_true_eq]
    intro hmem
    rcases Finset.mem_insert.mp hmem with h | h
    · rw [h] at ha
      rw [mem_ancestorsOf] at ha
      have h1 := length_lt_of_strict_prefix ha.1 ha.2
      have h2 : p.dropLast.length < p.length := by
        rw [List.length_dropLast]
        have : p.length ≠ 0 := fun hz => hroot (List.length_eq_zero.mp hz)
        omega
      omega
    · exact hparsel a (mem_ancestorsOf_dropLast hroot ha) h
  have hres : selectFile t S p =
      ⟨insert p.dropLast ((insert p S.selected).filter
          (fun q => descOf p.dropLast q = false)),
       ((S.deselected.erase p).erase p.dropLast).filter
          (fun q => descOf p.dropLast q = false),
       S.packFiles⟩ := by
    unfold selectFile
    dsimp only
    rw [isParentSelected_congr
      ⟨S.selected, S.deselected.erase p, S.packFiles⟩ S rfl p, hpar]
    rw [if_neg (by simp)]
    unfold checkAndSelectParentIfAllSiblingsSelected
    dsimp only
    rw [if_neg hroot,
      if_pos ⟨fun s hs => Finset.mem_insert_of_mem (hall s hs), hsibs⟩]
    unfold selectFolder
    dsimp only
    rw [hparP]
    rw [if_neg (by simp)]
    rfl
  rw [hres]
  dsimp only
  refine ⟨Finset.mem_insert_self _ _, ?_, ?_⟩
  · intro q hq
    have hqne : q ≠ p.dropLast := by
      rw [descOf_iff] at hq
      exact hq.2
    intro hmem
    rcases Finset.mem_insert.mp hmem with h | h
    · exact hqne h
    · have := (Finset.mem_filter.mp h).2
      rw [this] at hq
      exact Bool.false_ne_true hq
  · intro q hq hqne
    constructor
    · intro hmem
      rcases Finset.mem_insert.mp hmem with h | h
      · exact absurd h hqne
      · have hq2 := (Finset.mem_filter.mp h).1
        rcases Finset.mem_insert.mp hq2 with h2 | h2
        · subst h2
          exact absurd (descOf_dropLast_self hroot) (by rw [hq]; simp)
        · exact h2
    · intro hmem
      exact Finset.mem_insert_of_mem
        (Finset.mem_filter.mpr ⟨Finset.mem_insert_of_mem hmem, hq⟩)

def t5 : FSEntry :=
  .dir [("P", .dir [("f1", .file true 1), ("f2", .file true 2)]),
        ("Q", .file true 3)]

def s5 : SelState := ⟨{["P", "f1"], ["Q"]}, ∅, false⟩

/-- C5 counterexample: selecting file `P/f2` when its sibling `P/f1` is
already included promotes `P`, after which every sibling of `P` (namely `Q`)
is included — the claim's recursive fold-up would promote the grandparent
(the workspace root `[]`) — yet the result is exactly `{P, Q}` and the root is
not included: the promotion does not recurse. -/
theorem c5_counterexample :
    (selectFile t5 s5 ["P", "f2"]).selected =
      ({["P"], ["Q"]} : Finset RPath) ∧
    siblingsOf t5 ["P"] ≠ [] ∧
    (∀ s ∈ siblingsOf t5 ["P"], s ∈ (selectFile t5 s5 ["P", "f2"]).selected) ∧
    ([] : RPath) ∉ (selectFile t5 s5 ["P", "f2"]).selected := by decide

theorem c5_amended_witness :
    ["P"] ∈ (selectFile t5 s5 ["P", "f2"]).selected ∧
    ["P", "f1"] ∉ (selectFile t5 s5 ["P", "f2"]).selected ∧
    (([] : RPath) ∈ (selectFile t5 s5 ["P", "f2"]).selected ↔
      ([] : RPath) ∈ s5.selected) :=
  ⟨(c5_amended t5 s5 ["P", "f2"] (by decide) (by decide) (by decide)
      (by decide)).1,
   (c5_amended t5 s5 ["P", "f2"] (by decide) (by decide) (by decide)
      (by decide)).2.1 ["P", "f1"] (by decide),
   (c5_amended t5 s5 ["P", "f2"] (by decide) (by decide) (by decide)
      (by decide)).2.2 [] (by decide) (by decide)⟩

theorem selState_ite_desel (c : Prop) [Decidable c] (S : SelState)
    (X Y : Finset RPath) :
    (if c then { S with deselected := X } else { S with deselected := Y }) =
      { S with deselected := if c then X else Y } := by
  split <;> simp

theorem isItemSelected_sets (S S' : SelState) (hs : S.selected = S'.selected)
    (hd : S.deselected = S'.deselected) (p : RPath) :
    isItemSelected S p = isItemSelected S' p := by
  unfold isItemSelected isParentSelected
  rw [hs, hd]

theorem isItemSelected_of_ancestor {sel X : Finset RPath} {pk : Bool}
    {q : RPath} (ha : ∃ a ∈ ancestorsOf q, a ∈ sel) (hX : q ∉ X) :
    isItemSelected ⟨sel, X, pk⟩ q = true := by
  obtain ⟨a, ha, hmem⟩ := ha
  unfold isItemSelected isParentSelected
  have hany : (ancestorsOf q).any (fun a => decide (a ∈ sel)) = true :=
    List.any_eq_true.mpr ⟨a, ha, by simpa using hmem⟩
  simp only [hany, SelState.deselected] at *
  simp [hX]

theorem isItemSelected_false_of_excluded {sel X : Finset RPath} {pk : Bool}
    {q : RPath} (h1 : q ∉ sel) (h2 : q ∈ X) :
    isItemSelected ⟨sel, X, pk⟩ q = false := by
  unfold isItemSelected
  simp [h1, h2]

theorem isItemSelected_empty (X : Finset RPath) (pk : Bool) (q : RPath) :
    isItemSelected ⟨∅, X, pk⟩ q = false := by
  unfold isItemSelected isParentSelected
  simp

theorem isItemSelected_single_cover (t : FSEntry) (d D : RPath)
    (Dset : Finset RPath) (pk : Bool)
    (halpha : ∀ q ∈ Dset, D <+: q)
    (hbeta : ∀ q, D <+: q → existsAt t q = true → q ∈ Dset)
    (p : RPath) (hp : descOf d p = true) (hpex : existsAt t p = true) :
    isItemSelected ⟨{d}, Dset, pk⟩ p = !(D.isPrefixOf p) := by
  by_cases hpre : D.isPrefixOf p = true
  · have hmem : p ∈ Dset := hbeta p (List.isPrefixOf_iff_prefix.mp hpre) hpex
    have hpne : p ∉ ({d} : Finset RPath) := by
      rw [Finset.mem_singleton]
      exact (descOf_iff.mp hp).2
    rw [isItemSelected_false_of_excluded hpne hmem, hpre]
    rfl
  · have hpre' : D.isPrefixOf p = false := by
      cases h : D.isPrefixOf p
      · rfl
      · exact absurd h hpre
    have hnm : p ∉ Dset := fun hmem =>
      hpre (by
        rw [List.isPrefixOf_iff_prefix]
        exact halpha p hmem)
    rw [isItemSelected_of_ancestor
      ⟨d, mem_ancestorsOf_iff_descOf.mpr hp, Finset.mem_singleton_self d⟩ hnm,
      hpre']
    rfl

theorem append_singleton_ne (d : RPath) (n : FName) : d ++ [n] ≠ d := by
  intro h
  have := congrArg List.length h
  simp only [List.length_append, List.length_cons, List.length_nil] at this
  omega

theorem length_succ_of_dropLast_eq {D d : RPath} (hDnil : D ≠ [])
    (hB : D.dropLast = d) : D.length = d.length + 1 := by
  have h1 : D.dropLast.length = D.length - 1 := List.length_dropLast D
  have h2 : D.length ≠ 0 := fun h => hDnil (List.length_eq_zero.mp h)
  rw [hB] at h1
  omega

theorem deselect_tail_single_cover (t : FSEntry) (d D : RPath)
    (DF : Finset RPath)
    (hdesc : descOf d D = true) (hex : existsAt t D = true)
    (halpha : ∀ q ∈ DF, D <+: q)
    (hbeta : ∀ q, D <+: q → existsAt t q = true → q ∈ DF)
    (S1 : SelState) (hS1sel : S1.selected = {d}) (hS1desel : S1.deselected = DF) :
    ∀ p, descOf d p = true → existsAt t p = true →
      isItemSelected
        (if D ≠ [] ∧ D.dropLast ∈ S1.selected then
           checkAndDeselectParentIfNoChildrenSelected t S1 D.dropLast
         else S1) p = !(D.isPrefixOf p) := by
  have hDned : D ≠ d := (descOf_iff.mp hdesc).2
  have hdpre : d <+: D := (descOf_iff.mp hdesc).1
  have hDnil : D ≠ [] := by
    intro h
    apply hDned
    subst h
    exact (List.prefix_nil.mp hdpre).symm
  have hdD : d.length < D.length :=
    length_lt_of_strict_prefix hdpre (fun h => hDned h.symm)
  have hpoint : ∀ (Y : SelState), Y.selected = {d} → Y.deselected = DF →
      ∀ p, descOf d p = true → existsAt t p = true →
      isItemSelected Y p = !(D.isPrefixOf p) := by
    intro Y hY1 hY2 p hp hpex
    rw [isItemSelected_sets Y ⟨{d}, DF, false⟩ hY1 hY2]
    exact isItemSelected_single_cover t d D DF false halpha hbeta p hp hpex
  intro p hp hpex
  by_cases hB : D.dropLast = d
  · rw [if_pos ⟨hDnil, by rw [hS1sel, hB, Finset.mem_singleton]⟩]
    have hDlen : D.length = d.length + 1 := length_succ_of_dropLast_eq hDnil hB
    have hchild : ∀ n : FName,
        isItemSelected S1 (d ++ [n]) = !(decide (d ++ [n] = D)) := by
      intro n
      rw [isItemSelected_sets S1 ⟨{d}, DF, false⟩ hS1sel hS1desel]
      have hiff : d ++ [n] ∈ DF ↔ d ++ [n] = D := by
        constructor
        · intro hmem
          have hpre := halpha _ hmem
          have hlen : (d ++ [n]).length = D.length := by
            simp only [List.length_append, List.length_cons, List.length_nil]
            omega
          exact (hpre.eq_of_length hlen.symm).symm
        · intro h
          rw [h]
          exact hbeta D List.prefix_rfl hex
      have hq1 : d ++ [n] ∉ ({d} : Finset RPath) := by
        rw [Finset.mem_singleton]
        exact append_singleton_ne d n
      have hanc : d ∈ ancestorsOf (d ++ [n]) := by
        rw [mem_ancestorsOf]
        exact ⟨List.prefix_append d [n], fun h => append_singleton_ne d n h.symm⟩
      unfold isItemSelected isParentSelected
      have hany : (ancestorsOf (d ++ [n])).any
          (fun a => decide (a ∈ (⟨{d}, DF, false⟩ : SelState).selected)) =
          true :=
        List.any_eq_true.mpr ⟨d, hanc, by simp⟩
      simp only [hany, Bool.true_and]
      rw [show decide ((d ++ [n]) ∈ (⟨{d}, DF, false⟩ : SelState).selected) =
          false by simp [hq1]]
      rw [show decide ((d ++ [n]) ∈ (⟨{d}, DF, false⟩ : SelState).deselected) =
          decide (d ++ [n] = D) from decide_eq_decide.mpr hiff]
      simp
    unfold checkAndDeselectParentIfNoChildrenSelected
    dsimp only
    rw [hB]
    by_cases hany : ∃ n ∈ childNames t d, d ++ [n] ≠ D
    · obtain ⟨n, hn, hne⟩ := hany
      rw [if_pos ?hpos]
      case hpos =>
        refine List.any_eq_true.mpr ⟨n, hn, ?_⟩
        rw [hchild n]
        simp [hne]
      exact hpoint S1 hS1sel hS1desel p hp hpex
    · push_neg at hany
      rw [if_neg ?hneg]
      case hneg =>
        simp only [Bool.not_eq_true]
        rw [List.any_eq_false]
        intro n hn
        rw [hchild n, hany n hn]
        simp
      -- the covering parent collapses: both sets become empty
      have hall : ∀ q ∈ DF, descOf d q = true := by
        intro q hq
        have hpre := halpha q hq
        rw [descOf_iff]
        refine ⟨hdpre.trans hpre, ?_⟩
        intro hcontra
        have := hpre.length_le
        rw [hcontra] at this
        omega
      have hself : isItemSelected
          (clearDeselectedItemsInFolder
            { S1 with selected := S1.selected.erase d } d) p = false := by
        rw [isItemSelected_sets _ ⟨∅, ∅, false⟩ ?h1 ?h2]
        · exact isItemSelected_empty ∅ false p
        · show S1.selected.erase d = ∅
          rw [hS1sel, Finset.erase_singleton]
        · show S1.deselected.filter (fun q => descOf d q = false) = ∅
          rw [hS1desel, Finset.filter_eq_empty_iff]
          intro q hq
          rw [hall q hq]
          simp
      rw [hself]
      -- with every child of d equal to D, every descendant of d is under D
      rw [descOf_iff] at hp
      obtain ⟨hppre, hpne⟩ := hp
      obtain ⟨r, rfl⟩ := hppre
      have hr : r ≠ [] := by
        rintro rfl
        exact hpne (by simp)
      match r, hr with
      | n :: rest, _ =>
        have hnc : n ∈ childNames t d :=
          mem_childNames_of_found (by simpa [existsAt] using hpex)
        have hDeq : d ++ [n] = D := hany n hnc
        have hpre : D.isPrefixOf (d ++ n :: rest) = true := by
          rw [List.isPrefixOf_iff_prefix, ← hDeq]
          exact ⟨rest, by simp⟩
        rw [hpre]
        rfl
  · rw [if_neg ?hcond]
    case hcond =>
      rintro ⟨-, hmem⟩
      rw [hS1sel, Finset.mem_singleton] at hmem
      exact hB hmem
    exact hpoint S1 hS1sel hS1desel p hp hpex

theorem isParentSelected_empty (X : Finset RPath) (pk : Bool) (p : RPath) :
    isParentSelected ⟨∅, X, pk⟩ p = false := by
  unfold isParentSelected
  simp

theorem selectFolder_from_empty (pf : Bool) (d : RPath) :
    selectFolder ⟨∅, ∅, pf⟩ d = ⟨{d}, ∅, pf⟩ := by
  unfold selectFolder
  dsimp only
  rw [if_neg ?hc]
  case hc =>
    rw [isParentSelected_congr ⟨∅, Finset.erase ∅ d, pf⟩ ⟨∅, ∅, pf⟩ rfl d,
      isParentSelected_empty]
    simp
  unfold removeChildSelections clearDeselectedItemsInFolder
  dsimp only
  simp [Finset.erase_empty, Finset.filter_empty]

/-- The spec's invariant I2, stated in its own words: derived inclusion of a
path P = (P ∈ included) OR (some ancestor of P is in included AND
P ∉ excluded). -/
def derivedInclusionI2 (S : SelState) (q : RPath) : Prop :=
  q ∈ S.selected ∨
    ((∃ a, (a <+: q ∧ a ≠ q) ∧ a ∈ S.selected) ∧ q ∉ S.deselected)

theorem isItemSelected_iff_I2 (S : SelState) (q : RPath) :
    isItemSelected S q = true ↔ derivedInclusionI2 S q := by
  unfold isItemSelected isParentSelected derivedInclusionI2
  simp only [Bool.or_eq_true, Bool.and_eq_true, decide_eq_true_eq,
    List.any_eq_true, Bool.not_eq_true', decide_eq_false_iff_not]
  constructor
  · rintro (h | ⟨⟨a, ha, hmem⟩, hnd⟩)
    · exact Or.inl h
    · exact Or.inr ⟨⟨a, mem_ancestorsOf.mp ha, hmem⟩, hnd⟩
  · rintro (h | ⟨⟨a, ha, hmem⟩, hnd⟩)
    · exact Or.inl h
    · exact Or.inr ⟨⟨a, mem_ancestorsOf.mpr ha, hmem⟩, hnd⟩

/-- C3: starting from the empty selection state, toggling a directory `d`
makes every existing descendant of `d` derived-included; then toggling one
existing descendant `D` flips exactly `D` and the paths below it to
not-included while every other descendant of `d` stays included; and in every
state the inclusion query `isItemSelected` coincides with the spec's
derived-inclusion invariant I2. -/
theorem c3_selection_inclusion (t : FSEntry) (d D : RPath) (pf : Bool)
    (hd : isDirAt t d = true) (hdesc : descOf d D = true)
    (hex : existsAt t D = true) :
    (∀ p, descOf d p = true → existsAt t p = true →
      isItemSelected (toggleSelection t ⟨∅, ∅, pf⟩ d) p = true) ∧
    (∀ p, descOf d p = true → existsAt t p = true →
      isItemSelected
        (toggleSelection t (toggleSelection t ⟨∅, ∅, pf⟩ d) D) p =
        !(D.isPrefixOf p)) ∧
    (∀ (S : SelState) (q : RPath),
      isItemSelected S q = true ↔ derivedInclusionI2 S q) := by
  have hDned : D ≠ d := (descOf_iff.mp hdesc).2
  have hS0 : isItemSelected ⟨∅, ∅, pf⟩ d = false := isItemSelected_empty ∅ pf d
  obtain ⟨T1, hT1⟩ : ∃ T1, toggleSelection t ⟨∅, ∅, pf⟩ d = T1 := ⟨_, rfl⟩
  have h1sel : T1.selected = {d} := by
    rw [← hT1, toggleSelection_selected, if_neg (by simp [hS0]), if_pos hd,
      selectFolder_from_empty]
  have h1desel : T1.deselected = ∅ := by
    rw [← hT1, toggleSelection_deselected, if_neg (by simp [hS0]), if_pos hd,
      selectFolder_from_empty]
  have hpart1 : ∀ p, descOf d p = true → existsAt t p = true →
      isItemSelected T1 p = true := by
    intro p hp _
    rw [isItemSelected_sets _ ⟨{d}, ∅, false⟩ h1sel h1desel]
    exact isItemSelected_of_ancestor
      ⟨d, mem_ancestorsOf_iff_descOf.mpr hp, Finset.mem_singleton_self d⟩
      (Finset.not_mem_empty p)
  rw [hT1]
  refine ⟨hpart1, ?_, isItemSelected_iff_I2⟩
  intro p hp hpex
  have hwas2 : isItemSelected T1 D = true := hpart1 D hdesc hex
  have htog : isItemSelected (toggleSelection t T1 D) p =
      isItemSelected (deselectItem t T1 D) p :=
    isItemSelected_sets _ _
      (by rw [toggleSelection_selected, if_pos hwas2])
      (by rw [toggleSelection_deselected, if_pos hwas2]) p
  rw [htog]
  have hDmem : D ∉ T1.selected := by
    rw [h1sel, Finset.mem_singleton]
    exact hDned
  unfold deselectItem
  rw [if_neg hDmem]
  dsimp only
  by_cases hdir : isDirAt t D = true
  · rw [if_pos hdir]
    unfold addDeselectedItemsInFolder
    refine deselect_tail_single_cover t d D
      (insert D (descendantPathsAt t D).toFinset) hdesc hex ?_ ?_
      ⟨T1.selected, T1.deselected ∪ insert D (descendantPathsAt t D).toFinset,
        T1.packFiles⟩ h1sel ?_ p hp hpex
    · intro q hq
      rcases Finset.mem_insert.mp hq with rfl | hq2
      · exact List.prefix_rfl
      · exact (descOf_iff.mp
          (descOf_of_mem_descendantPathsAt (List.mem_toFinset.mp hq2))).1
    · intro q hq hqex
      by_cases hqD : q = D
      · subst hqD
        exact Finset.mem_insert_self _ _
      · exact Finset.mem_insert_of_mem (List.mem_toFinset.mpr
          (mem_descendantPathsAt_of_found
            (by rw [descOf_iff]; exact ⟨hq, hqD⟩) hqex))
    · show T1.deselected ∪ insert D (descendantPathsAt t D).toFinset =
          insert D (descendantPathsAt t D).toFinset
      rw [h1desel]
      exact Finset.empty_union _
  · rw [if_neg hdir]
    refine deselect_tail_single_cover t d D {D} hdesc hex ?_ ?_
      ⟨T1.selected, insert D T1.deselected, T1.packFiles⟩ h1sel ?_ p hp hpex
    · intro q hq
      rw [Finset.mem_singleton] at hq
      subst hq
      exact List.prefix_rfl
    · intro q hq hqex
      by_cases hqD : q = D
      · subst hqD
        exact Finset.mem_singleton_self _
      · exfalso
        obtain ⟨r, rfl⟩ := hq
        have hr : r ≠ [] := by
          rintro rfl
          exact hqD (by simp)
        match r, hr with
        | n :: rest, _ =>
          exact hdir (isDirAt_of_found_strict (by simpa [existsAt] using hqex))
    · show insert D T1.deselected = {D}
      rw [h1desel]
      simp

def t3w : FSEntry :=
  .dir [("d", .dir [("a", .dir [("u", .file true 1)]), ("b", .file true 2)])]

theorem c3_witness :
    isItemSelected (toggleSelection t3w ⟨∅, ∅, false⟩ ["d"]) ["d", "b"] =
      true ∧
    isItemSelected
      (toggleSelection t3w (toggleSelection t3w ⟨∅, ∅, false⟩ ["d"])
        ["d", "a"]) ["d", "a", "u"] =
      !(["d", "a"].isPrefixOf ["d", "a", "u"]) ∧
    (isItemSelected ⟨{["d"]}, ∅, false⟩ ["d", "b"] = true ↔
      derivedInclusionI2 ⟨{["d"]}, ∅, false⟩ ["d", "b"]) :=
  ⟨(c3_selection_inclusion t3w ["d"] ["d", "a"] false (by decide) (by decide)
      (by decide)).1 ["d", "b"] (by decide) (by decide),
   (c3_selection_inclusion t3w ["d"] ["d", "a"] false (by decide) (by decide)
      (by decide)).2.1 ["d", "a", "u"] (by decide) (by decide),
   (c3_selection_inclusion t3w ["d"] ["d", "a"] false (by decide) (by decide)
      (by decide)).2.2 ⟨{["d"]}, ∅, false⟩ ["d", "b"]⟩
